import Mathlib

/-!
# Verification of the panforge target-resolution and execution pipeline

Shallow embedding of the Go sources of rapjul/panforge:

* internal/utils/utils.go — Slugify, sanitize
* internal/pandoc — ExtForFormat, GenerateOutputFilename, GetArgs and the
  reserved-flag table built by the package init function
* internal/app — DetermineTargets, isOverwriteAllowed, and the Process
  scheduler (errgroup with a weighted semaphore)

Go map[string]interface{} option bags are embedded as association lists
List (String × Value) whose list order models the map iteration order; a
real Go map has unique keys, which appears as Nodup hypotheses where
needed.  Go string functions that the claims evaluate are re-implemented
on character lists (the Lean core versions are iterator-based and do not
reduce in the kernel); character code-point order coincides with the Go
byte-wise order because UTF-8 is order-preserving.
-/

namespace PfStr

/-- Byte-wise lexicographic order of Go sort.Strings, on character lists
(code-point order, which agrees with UTF-8 byte order). -/
def lexLe : List Char → List Char → Bool
  | [], _ => true
  | _ :: _, [] => false
  | a :: as, b :: bs =>
    if a.toNat < b.toNat then true
    else if b.toNat < a.toNat then false
    else lexLe as bs

/-- Order used for sort.Strings in the embedding. -/
def strLe (a b : String) : Prop := lexLe a.data b.data = true

instance : DecidableRel strLe := fun a b =>
  inferInstanceAs (Decidable (lexLe a.data b.data = true))

theorem lexLe_total (a b : List Char) : lexLe a b = true ∨ lexLe b a = true := by
  induction a generalizing b with
  | nil => exact Or.inl rfl
  | cons x xs ih =>
    cases b with
    | nil => exact Or.inr rfl
    | cons y ys =>
      by_cases hxy : x.toNat < y.toNat
      · exact Or.inl (by simp [lexLe, hxy])
      · by_cases hyx : y.toNat < x.toNat
        · exact Or.inr (by simp [lexLe, hyx])
        · rcases ih ys with h | h
          · exact Or.inl (by simp [lexLe, hxy, hyx, h])
          · exact Or.inr (by simp [lexLe, hxy, hyx, h])

theorem lexLe_cases {x y : Char} {xs ys : List Char}
    (h : lexLe (x :: xs) (y :: ys) = true) :
    x.toNat < y.toNat ∨ (x.toNat = y.toNat ∧ lexLe xs ys = true) := by
  by_cases hlt : x.toNat < y.toNat
  · exact Or.inl hlt
  · by_cases hgt : y.toNat < x.toNat
    · simp [lexLe, hlt, hgt] at h
    · exact Or.inr ⟨by omega, by simpa [lexLe, hlt, hgt] using h⟩

theorem lexLe_trans {a b c : List Char} (h1 : lexLe a b = true)
    (h2 : lexLe b c = true) : lexLe a c = true := by
  induction a generalizing b c with
  | nil => rfl
  | cons x xs ih =>
    cases b with
    | nil => simp [lexLe] at h1
    | cons y ys =>
      cases c with
      | nil => simp [lexLe] at h2
      | cons z zs =>
        rcases lexLe_cases h1 with hxy | ⟨hxy, hxs⟩ <;>
          rcases lexLe_cases h2 with hyz | ⟨hyz, hys⟩
        · simp [lexLe, show x.toNat < z.toNat by omega]
        · simp [lexLe, show x.toNat < z.toNat by omega]
        · simp [lexLe, show x.toNat < z.toNat by omega]
        · simp only [lexLe, if_neg (show ¬ x.toNat < z.toNat by omega),
            if_neg (show ¬ z.toNat < x.toNat by omega)]
          exact ih hxs hys

theorem charEq_of_toNat {x y : Char} (h : x.toNat = y.toNat) : x = y := by
  apply Char.ext
  apply UInt32.eq_of_val_eq
  exact Fin.ext h

theorem lexLe_antisymm {a b : List Char} (h1 : lexLe a b = true)
    (h2 : lexLe b a = true) : a = b := by
  induction a generalizing b with
  | nil =>
    cases b with
    | nil => rfl
    | cons y ys => simp [lexLe] at h2
  | cons x xs ih =>
    cases b with
    | nil => simp [lexLe] at h1
    | cons y ys =>
      rcases lexLe_cases h1 with hxy | ⟨hxy, hxs⟩ <;>
        rcases lexLe_cases h2 with hyx | ⟨hyx, hys⟩
      · omega
      · omega
      · omega
      · rw [charEq_of_toNat hxy, ih hxs hys]

instance : IsTotal String strLe := ⟨fun a b => lexLe_total a.data b.data⟩

instance : IsTrans String strLe := ⟨fun _ _ _ => lexLe_trans⟩

instance : IsAntisymm String strLe :=
  ⟨fun a b h1 h2 => by
    cases a; cases b
    exact congrArg String.mk (lexLe_antisymm h1 h2)⟩

instance : IsRefl String strLe :=
  ⟨fun a => by
    show lexLe a.data a.data = true
    induction a.data with
    | nil => rfl
    | cons c cs ih => simp [lexLe, ih]⟩

/-- Go sort.Strings. -/
def sortStrings (l : List String) : List String := l.insertionSort strLe

/-- Key order for sorting association-list entries by key. -/
def keyLe {β : Type} (a b : String × β) : Prop := strLe a.1 b.1

instance {β : Type} : DecidableRel (@keyLe β) := fun a b =>
  inferInstanceAs (Decidable (strLe a.1 b.1))

/-- Go strings.ReplaceAll on character lists, for a non-empty pattern:
leftmost non-overlapping occurrences of pat are replaced by rep.  The
first argument is recursion fuel; with fuel = length of the subject it
never runs out, since every step consumes at least one character. -/
def replaceAllAux (fuel : Nat) (s pat rep : List Char) : List Char :=
  match fuel, s with
  | _, [] => []
  | 0, s => s
  | fuel + 1, c :: rest =>
    if pat ≠ [] ∧ pat.isPrefixOf (c :: rest) then
      rep ++ replaceAllAux fuel ((c :: rest).drop pat.length) pat rep
    else
      c :: replaceAllAux fuel rest pat rep

/-- Go strings.ReplaceAll (for the non-empty literal patterns the source
uses). -/
def replaceAll (s pat rep : String) : String :=
  String.mk (replaceAllAux s.data.length s.data pat.data rep.data)

/-- Go strings.Split with a single-character separator (the source only
splits on a newline). -/
def splitLines : List Char → List (List Char)
  | [] => [[]]
  | c :: rest =>
    match splitLines rest with
    | [] => [[]]
    | line :: ls => if c = '\n' then [] :: line :: ls else (c :: line) :: ls

/-- Go strings.TrimSuffix. -/
def trimSuffixL (s sfx : List Char) : List Char :=
  if sfx.isSuffixOf s then s.take (s.length - sfx.length) else s

/-- Drop the trailing run of characters satisfying p. -/
def dropTrailing (p : Char → Bool) (l : List Char) : List Char :=
  ((l.reverse).dropWhile p).reverse

/-- Whitespace class of Go strings.TrimSpace (ASCII fragment of
unicode.IsSpace; the pipeline only trims ASCII titles and filenames). -/
def isWS (c : Char) : Bool :=
  c == ' ' || c == '\t' || c == '\n' || c == '\x0b' || c == '\x0c' || c == '\r'

/-- Go strings.TrimSpace. -/
def trimSpace (l : List Char) : List Char :=
  dropTrailing isWS (l.dropWhile isWS)

/-- ASCII fragment of Go strings.ToLower, per character (only ASCII
letters occur in the format identifiers and flags the claims evaluate). -/
def lowerChar (c : Char) : Char :=
  if 'A' ≤ c && c ≤ 'Z' then Char.ofNat (c.toNat + 32) else c

/-- ASCII fragment of Go strings.ToUpper, per character. -/
def upperChar (c : Char) : Char :=
  if 'a' ≤ c && c ≤ 'z' then Char.ofNat (c.toNat - 32) else c

/-- Go strings.ToLower (ASCII fragment). -/
def toLowerStr (s : String) : String := String.mk (s.data.map lowerChar)

end PfStr

namespace Panforge

open PfStr

/-- A YAML-decoded Go interface{} value: booleans, strings, integers,
lists and string-keyed maps.  A map value is carried as an association
list whose order is the Go map iteration order. -/
inductive Value : Type where
  | bool (b : Bool)
  | str (s : String)
  | int (n : Int)
  | list (xs : List Value)
  | map (m : List (String × Value))

/-- An option bag: a Go map[string]interface{}, as an association list in
iteration order. -/
abbrev Bag := List (String × Value)

/-- Go map read m[k]: the value of the first entry with key k. -/
def bagGet : Bag → String → Option Value
  | [], _ => none
  | (k1, v1) :: rest, k => if k = k1 then some v1 else bagGet rest k

/-- Go delete(m, k): removes every entry keyed k (a Go map has at most
one). -/
def bagDelete : Bag → String → Bag
  | [], _ => []
  | (k1, v1) :: rest, k =>
    if k1 = k then bagDelete rest k else (k1, v1) :: bagDelete rest k

mutual
/-- Go fmt.Sprintf with verb v on the values that occur in option bags.
Booleans print as true/false, strings verbatim, integers in decimal; a
nested list prints space-separated in brackets, and a nested map prints
as map[k:v ...] with keys in sorted order (the Go fmt package sorts map
keys when printing). -/
def fmtV : Value → String
  | .bool true => "true"
  | .bool false => "false"
  | .str s => s
  | .int n => toString n
  | .list xs => "[" ++ String.intercalate " " (fmtVList xs) ++ "]"
  | .map m =>
      "map[" ++ String.intercalate " "
        (((fmtVMap m).insertionSort keyLe).map (fun kv => kv.1 ++ ":" ++ kv.2))
        ++ "]"

/-- List part of fmtV. -/
def fmtVList : List Value → List String
  | [] => []
  | v :: vs => fmtV v :: fmtVList vs

/-- Map part of fmtV: entries rendered to (key, printed value). -/
def fmtVMap : List (String × Value) → List (String × String)
  | [] => []
  | (k, v) :: kvs => (k, fmtV v) :: fmtVMap kvs
end

mutual
/-- Structural equality of values (Go reflect.DeepEqual-style), used to
express that two bags carry the same contents. -/
def beqV : Value → Value → Bool
  | .bool a, .bool b => a == b
  | .str a, .str b => a == b
  | .int a, .int b => a == b
  | .list a, .list b => beqVList a b
  | .map a, .map b => beqVMap a b
  | _, _ => false

/-- List part of beqV. -/
def beqVList : List Value → List Value → Bool
  | [], [] => true
  | a :: as, b :: bs => beqV a b && beqVList as bs
  | _, _ => false

/-- Map part of beqV. -/
def beqVMap : List (String × Value) → List (String × Value) → Bool
  | [], [] => true
  | (ka, va) :: as, (kb, vb) :: bs => ka == kb && beqV va vb && beqVMap as bs
  | _, _ => false
end

mutual
/-- Canonical form of a value: every nested map is sorted by key, so two
values represent the same key-value contents (regardless of map
iteration order) exactly when their canonical forms are equal. -/
def canonV : Value → Value
  | .bool b => .bool b
  | .str s => .str s
  | .int n => .int n
  | .list xs => .list (canonVList xs)
  | .map m => .map ((canonVMap m).insertionSort keyLe)

/-- List part of canonV. -/
def canonVList : List Value → List Value
  | [] => []
  | v :: vs => canonV v :: canonVList vs

/-- Map part of canonV. -/
def canonVMap : List (String × Value) → List (String × Value)
  | [] => []
  | (k, v) :: kvs => (k, canonV v) :: canonVMap kvs
end

/-- Two option bags have the same key-value contents — same keys mapped to
the same values, where map-valued entries are likewise compared by
contents, regardless of any map iteration order. -/
def sameContents (m1 m2 : Bag) : Bool :=
  beqVMap ((canonVMap m1).insertionSort keyLe) ((canonVMap m2).insertionSort keyLe)

end Panforge

namespace Utils

open PfStr

/-- Character class of the Go regular expression [a-z0-9] in the slugRegex
of utils.Slugify. -/
def isSlugChar (c : Char) : Bool :=
  ('a' ≤ c && c ≤ 'z') || ('0' ≤ c && c ≤ '9')

/-- One pass of slugRegex.ReplaceAllString(s, "-"): each maximal run of
characters outside [a-z0-9] becomes a single dash.  The flag records being
inside a non-matching run whose dash was already emitted. -/
def collapseAux : Bool → List Char → List Char
  | _, [] => []
  | inRun, c :: rest =>
    if isSlugChar c then c :: collapseAux false rest
    else if inRun then collapseAux true rest
    else '-' :: collapseAux true rest

/-- slugRegex.ReplaceAllString(s, "-"). -/
def collapse (l : List Char) : List Char := collapseAux false l

/-- Go strings.Trim(s, "-"). -/
def trimDash (l : List Char) : List Char :=
  dropTrailing (fun c => c == '-') (l.dropWhile (fun c => c == '-'))

/-- utils.Slugify: lowercase the trimmed title, collapse non-alphanumeric
runs to single dashes, and trim leading and trailing dashes.  (The final
Go statement returning "" when the result is empty returns the same value
and is absorbed.) -/
def Slugify (title : String) : String :=
  if title = "" then ""
  else String.mk (trimDash (collapse ((trimSpace title.data).map lowerChar)))

/-- utils.sanitize: OS-specific filename sanitization; osName is
runtime.GOOS. -/
def sanitize (name : String) (osName : String) : String :=
  if name = "" then ""
  else
    let s := String.mk (trimSpace name.data)
    let s := replaceAll (replaceAll s "/" "_") "\\" "_"
    let s := if osName = "darwin" then replaceAll s ":" "_" else s
    if osName = "windows" then
      let s := ["<", ">", ":", "\"", "/", "\\", "|", "?", "*"].foldl
        (fun acc b => replaceAll acc b "_") s
      let badNames := ["CON", "PRN", "AUX", "NUL", "COM1", "COM2", "COM3",
        "COM4", "COM5", "COM6", "COM7", "COM8", "COM9", "LPT1", "LPT2",
        "LPT3", "LPT4", "LPT5", "LPT6", "LPT7", "LPT8", "LPT9"]
      if badNames.contains (String.mk (s.data.map upperChar)) then "_" else s
    else s

end Utils

namespace Pandoc

open PfStr Panforge

/-- Reserved flag set built by the pandoc package init function: one long
and one short flag per field of the options.Options struct (tags flag and
shorthand, collected by reflection at process start), plus the help
flags. -/
def internalFlags : List String :=
  ["--to", "-t", "--output", "-o", "--force", "-f", "--dry-run", "-n",
   "--verbose", "-v", "--quiet", "-q", "--log", "-l", "--all", "-a",
   "--watch", "-w", "--concurrency", "-c", "--help", "-h"]

/-- pandoc.ExtForFormat: fixed format-to-extension table over the
lowercased identifier; unrecognized identifiers fall through to the
lowercased input. -/
def ExtForFormat (fmtStr : String) : String :=
  let f := toLowerStr fmtStr
  if f = "html" ∨ f = "html5" then "html"
  else if f = "epub" ∨ f = "epub3" then "epub"
  else if f = "docx" then "docx"
  else if f = "markdown" ∨ f = "md" then "md"
  else if f = "latex" ∨ f = "tex" then "tex"
  else if f = "pdf" then "pdf"
  else if f = "beamer" then "pdf"
  else f

/-- config.Config: the YAML header structure (the fields the pipeline
reads). -/
structure Config : Type where
  title : String := ""
  author : String := ""
  outputs : List Value := []
  outputMap : Bag := []
  filenameTemplate : String := ""
  slugifyFilename : Option Bool := none
  generic : Bag := []

/-- Environment of one GenerateOutputFilename call: the bytes os.ReadFile
returns for the input file, the current date (utils.FormatDate) and local
time strings, and runtime.GOOS. -/
structure Env : Type where
  content : String := ""
  date : String := ""
  time : String := ""
  osName : String := "linux"

/-- Title fallback of GenerateOutputFilename: the first line of the file
content starting with a hash and a space, with that prefix removed and
the rest trimmed; empty if no such line. -/
def firstHeading (content : String) : String :=
  match (splitLines content.data).find?
      (fun line => List.isPrefixOf "# ".data line) with
  | some line => String.mk (trimSpace (line.drop 2))
  | none => ""

/-- Second title fallback: filepath.Base of the input path (everything
after the final slash, trailing slashes removed). -/
def filepathBase (p : String) : String :=
  if p = "" then "."
  else
    let l := dropTrailing (fun c => c == '/') p.data
    if l = [] then "/"
    else String.mk ((l.reverse.takeWhile (fun c => c ≠ '/')).reverse)

/-- filepath.Ext: the suffix of the final path element starting at its
final dot, empty when the final element has no dot. -/
def filepathExt (p : String) : String :=
  let seg := p.data.reverse.takeWhile (fun c => c ≠ '/')
  let afterDot := seg.takeWhile (fun c => c ≠ '.')
  if afterDot.length = seg.length then ""
  else String.mk ('.' :: afterDot.reverse)

/-- The slugify-filename decision at the end of GenerateOutputFilename: a
boolean entry in the per-target bag wins (a non-boolean entry means
false), otherwise the tri-state global setting, otherwise false. -/
def shouldSlugify (cfg : Config) (metaOut : Bag) : Bool :=
  match bagGet metaOut "slugify-filename" with
  | some (.bool b) => b
  | some _ => false
  | none => cfg.slugifyFilename.getD false

/-- Template path of pandoc.GenerateOutputFilename: title resolution,
template substitution, platform sanitization, and the optional whole-name
slugify pass. -/
def renderFilename (env : Env) (inputFile : String) (cfg : Config)
    (metaOut : Bag) (pandocFmt : String) : String :=
  let title := cfg.title
  let title := if title = "" then firstHeading env.content else title
  let title :=
    if title = "" then
      String.mk (trimSuffixL (filepathBase inputFile).data
        (filepathExt inputFile).data)
    else title
  let tmpl := if cfg.filenameTemplate = "" then "{title}_{date}.{ext}"
    else cfg.filenameTemplate
  let ext := ExtForFormat pandocFmt
  let r := replaceAll tmpl "{date}" env.date
  let r := replaceAll r "{time}" env.time
  let r := replaceAll r "{title}" title
  let r := replaceAll r "{author}" cfg.author
  let r := replaceAll r "{title-slug}" (Utils.Slugify title)
  let r := replaceAll r "{author-slug}" (Utils.Slugify cfg.author)
  let r := replaceAll r "{ext}" ext
  let r := Utils.sanitize r env.osName
  if shouldSlugify cfg metaOut then
    let e := filepathExt r
    Utils.Slugify (String.mk (trimSuffixL r.data e.data)) ++ e
  else r

/-- pandoc.GenerateOutputFilename: a non-empty string output entry in the
per-target bag is returned verbatim, otherwise the template path is
rendered. -/
def GenerateOutputFilename (env : Env) (inputFile : String) (cfg : Config)
    (metaOut : Bag) (pandocFmt : String) : String :=
  match bagGet metaOut "output" with
  | some (.str s) =>
      if s = "" then renderFilename env inputFile cfg metaOut pandocFmt else s
  | _ => renderFilename env inputFile cfg metaOut pandocFmt

/-- Option name after the underscore-to-hyphen rewrite in GetArgs. -/
def hyphenate (key : String) : String :=
  if key.data.contains '_' then replaceAll key "_" "-" else key

/-- The flag looked up in the reserved set: one leading dash for a
one-character name, two otherwise. -/
def flagToCheck (optName : String) : String :=
  if optName.length > 1 then "--" ++ optName else "-" ++ optName

/-- Loop body of the generic pass of GetArgs for one key: the four
always-excluded keys and the reserved flags emit nothing; a true boolean
emits a bare flag and a false boolean nothing (the Go guard comparing the
interface value against untyped false is absorbed by the boolean case); a
list emits the flag once per element; a map emits the flag once per entry
as key=value in the iteration order of the nested map; any other scalar
emits the flag and its printed form. -/
def emitOption (key : String) (val : Value) : List String :=
  if key = "to" ∨ key = "t" ∨ key = "output" ∨ key = "from" then []
  else
    let optName := hyphenate key
    if internalFlags.contains (flagToCheck optName) then []
    else
      let flag := "--" ++ optName
      match val with
      | .bool b => if b then [flag] else []
      | .list xs => xs.flatMap (fun item => [flag, fmtV item])
      | .map m => m.flatMap (fun kv => [flag, kv.1 ++ "=" ++ fmtV kv.2])
      | v => [flag, fmtV v]

/-- Generic pass of GetArgs: the keys of the bag in sorted order, each
looked up and emitted by emitOption. -/
def genericArgs (meta : Bag) : List String :=
  (sortStrings (meta.map Prod.fst)).flatMap (fun key =>
    match bagGet meta key with
    | some val => emitOption key val
    | none => [])

/-- Extraction step of GetArgs: when a pandoc_args entry exists, its list
elements are printed (a non-list value contributes nothing) and the entry
is deleted from the bag.  Returns (verbatim tail arguments, bag after the
delete). -/
def extractPandocArgs (meta : Bag) : List String × Bag :=
  match bagGet meta "pandoc_args" with
  | some val =>
      ((match val with
        | .list xs => xs.map fmtV
        | _ => []), bagDelete meta "pandoc_args")
  | none => ([], meta)

/-- pandoc.GetArgs: the pandoc_args entry is extracted first and its
elements appended verbatim at the end of the generic pass.  Returns the
emitted argument vector and the bag as GetArgs leaves it (the Go function
mutates its argument). -/
def GetArgs (meta : Bag) : List String × Bag :=
  (genericArgs (extractPandocArgs meta).2 ++ (extractPandocArgs meta).1,
   (extractPandocArgs meta).2)

end Pandoc

namespace App

open PfStr Panforge Pandoc

/-- app.DetermineTargets: CLI targets win; else the string entries of the
outputs list in order; else the sorted keys of the output map; else the
html fallback. -/
def DetermineTargets (optsTargets : List String) (cfg : Config) : List String :=
  if optsTargets.length > 0 then optsTargets
  else if cfg.outputs.length > 0 then
    cfg.outputs.filterMap (fun v => match v with | .str s => some s | _ => none)
  else if cfg.outputMap.length > 0 then
    sortStrings (cfg.outputMap.map Prod.fst)
  else ["html"]

/-- One layer of the overwrite check: an entry that is present, boolean
and true; a false, non-boolean or absent entry yields false and the
caller falls through to the next layer. -/
def overwriteEntry (o : Option Value) : Bool :=
  match o with
  | some (.bool b) => b
  | _ => false

/-- app.isOverwriteAllowed: true when the per-target bag has a boolean
true overwrite entry, or, failing that (including a false or non-boolean
entry), when the global generic config does. -/
def isOverwriteAllowed (cfg : Config) (metaOut : Bag) : Bool :=
  overwriteEntry (bagGet metaOut "overwrite") ||
  overwriteEntry (bagGet cfg.generic "overwrite")

end App

namespace Sched

/-- Phase of one conversion job inside app.Process: a goroutine is
started per target; it blocks acquiring the weighted semaphore, runs the
execution port, and ends in one of three terminal outcomes.  The
canceledEarly outcome is sem.Acquire(ctx, 1) returning the context error
after the errgroup context was canceled, so the job never runs. -/
inductive Phase : Type where
  | pending
  | running
  | succeeded
  | failedExec
  | canceledEarly
deriving DecidableEq

/-- Error value a goroutine hands the errgroup: the wrapped execution
port failure of job i, or the context cancellation error from
sem.Acquire. -/
inductive RunErr : Type where
  | execFail (i : Nat)
  | ctxCanceled
deriving DecidableEq

/-- State shared by the goroutines of one Process run: the intrinsic
behavior of each execution-port call (fails i), the job phases, the free
semaphore slots, the single error the errgroup keeps (set once, first
wins), the errgroup context flag (ctx is canceled exactly when the first
error is recorded), and the exec failures in completion order. -/
structure SchedState : Type where
  fails : List Bool
  phase : List Phase
  slots : Nat
  firstErr : Option RunErr
  canceled : Bool
  failLog : List Nat
deriving DecidableEq

/-- One scheduling decision: let job i pass (or fail) its semaphore
acquire, let a running job finish with its intrinsic outcome, or let a
running job die from the canceled context (exec.CommandContext kills the
process, so the port reports an error). -/
inductive Step : Type where
  | acquire (i : Nat)
  | finish (i : Nat)
  | finishKilled (i : Nat)
deriving DecidableEq

/-- errgroup error recording: the first non-nil error is kept and cancels
the shared context; later errors are discarded. -/
def record (s : SchedState) (e : RunErr) : SchedState :=
  if s.firstErr = none then { s with firstErr := some e, canceled := true } else s

/-- Small-step semantics of one Process run; none means the step is not
enabled in this state (the goroutine is blocked or past that point). -/
def applyStep (s : SchedState) : Step → Option SchedState
  | .acquire i =>
    match s.phase[i]? with
    | some .pending =>
      if s.canceled then
        some (record { s with phase := s.phase.set i .canceledEarly } .ctxCanceled)
      else if 0 < s.slots then
        some { s with slots := s.slots - 1, phase := s.phase.set i .running }
      else none
    | _ => none
  | .finish i =>
    match s.phase[i]? with
    | some .running =>
      if s.fails.getD i false then
        some (record { s with
          slots := s.slots + 1
          phase := s.phase.set i .failedExec
          failLog := s.failLog ++ [i] } (.execFail i))
      else
        some { s with slots := s.slots + 1, phase := s.phase.set i .succeeded }
    | _ => none
  | .finishKilled i =>
    match s.phase[i]? with
    | some .running =>
      if s.canceled then
        some (record { s with
          slots := s.slots + 1
          phase := s.phase.set i .failedExec
          failLog := s.failLog ++ [i] } (.execFail i))
      else none
    | _ => none

/-- Start of a Process run: one pending job per target, all slots free (the
Go code takes the concurrency flag when positive, else the host CPU
count; cap is that computed limit), no error, context live. -/
def initState (fails : List Bool) (cap : Nat) : SchedState :=
  { fails := fails, phase := fails.map (fun _ => .pending), slots := cap,
    firstErr := none, canceled := false, failLog := [] }

/-- Run a list of scheduling decisions; a step that is not enabled leaves
the state unchanged (so every list of steps denotes a valid
interleaving). -/
def runSteps (s : SchedState) (steps : List Step) : SchedState :=
  steps.foldl (fun s st => (applyStep s st).getD s) s

/-- A job phase from which the goroutine has returned. -/
def isTerminal : Phase → Bool
  | .succeeded => true
  | .failedExec => true
  | .canceledEarly => true
  | _ => false

end Sched


/-! ## Association-list lemmas shared by the claims -/

namespace Panforge

theorem bagDelete_eq_filter (m : Bag) (k : String) :
    bagDelete m k = m.filter (fun kv => !(decide (kv.1 = k))) := by
  induction m with
  | nil => rfl
  | cons kv rest ih =>
    rcases kv with ⟨k1, v1⟩
    by_cases h : k1 = k <;> simp [bagDelete, List.filter_cons, h, ih]

theorem bagGet_bagDelete_self (m : Bag) (k : String) :
    bagGet (bagDelete m k) k = none := by
  induction m with
  | nil => rfl
  | cons kv rest ih =>
    rcases kv with ⟨k1, v1⟩
    by_cases h : k1 = k
    · simpa [bagDelete, h] using ih
    · have hk : ¬ (k = k1) := fun hc => h hc.symm
      simp [bagDelete, h, bagGet, hk, ih]

theorem bagGet_bagDelete_ne (m : Bag) (k k' : String) (h : k' ≠ k) :
    bagGet (bagDelete m k) k' = bagGet m k' := by
  induction m with
  | nil => rfl
  | cons kv rest ih =>
    rcases kv with ⟨k1, v1⟩
    by_cases h1 : k1 = k
    · have hk : ¬ (k' = k1) := fun hc => h (hc.trans h1)
      simp [bagDelete, h1, bagGet, hk, h, ih]
    · by_cases h2 : k' = k1
      · simp [bagDelete, h1, bagGet, h2]
      · simp [bagDelete, h1, bagGet, h2, ih]

theorem bagDelete_comm (m : Bag) (k1 k2 : String) :
    bagDelete (bagDelete m k1) k2 = bagDelete (bagDelete m k2) k1 := by
  induction m with
  | nil => rfl
  | cons kv rest ih =>
    rcases kv with ⟨kk, vv⟩
    by_cases ha : kk = k1
    · subst ha
      by_cases hb : kk = k2
      · subst hb; rfl
      · simp [bagDelete, hb, ih]
    · by_cases hb : kk = k2
      · subst hb
        simp [bagDelete, ha, ih]
      · simp [bagDelete, ha, hb, ih]

theorem bagGet_eq_none_iff (m : Bag) (k : String) :
    bagGet m k = none ↔ k ∉ m.map Prod.fst := by
  induction m with
  | nil => simp [bagGet]
  | cons kv rest ih =>
    rcases kv with ⟨k1, v1⟩
    by_cases h : k = k1
    · subst h; simp [bagGet]
    · simpa [bagGet, h] using ih

theorem mem_of_bagGet_eq_some {m : Bag} {k : String} {v : Value}
    (h : bagGet m k = some v) : (k, v) ∈ m := by
  induction m with
  | nil => simp [bagGet] at h
  | cons kv rest ih =>
    rcases kv with ⟨k1, v1⟩
    by_cases hk : k = k1
    · subst hk
      simp [bagGet] at h
      subst h
      exact List.mem_cons_self _ _
    · simp only [bagGet, if_neg hk] at h
      exact List.mem_cons_of_mem _ (ih h)

theorem bagGet_eq_some_of_mem {m : Bag} {k : String} {v : Value}
    (hnd : (m.map Prod.fst).Nodup) (h : (k, v) ∈ m) : bagGet m k = some v := by
  induction m with
  | nil => simp at h
  | cons kv rest ih =>
    rcases kv with ⟨k1, v1⟩
    simp only [List.map_cons, List.nodup_cons] at hnd
    rcases List.mem_cons.mp h with heq | hmem
    · rw [show k = k1 from congrArg Prod.fst heq,
        show v = v1 from congrArg Prod.snd heq]
      simp [bagGet]
    · have hk : k ≠ k1 := by
        rintro rfl
        exact hnd.1 (List.mem_map.mpr ⟨(k, v), hmem, rfl⟩)
      simp only [bagGet, if_neg hk]
      exact ih hnd.2 hmem

theorem bagGet_perm {m1 m2 : Bag} (hp : m1.Perm m2)
    (hnd : (m1.map Prod.fst).Nodup) (k : String) :
    bagGet m1 k = bagGet m2 k := by
  have hnd2 : (m2.map Prod.fst).Nodup := ((hp.map Prod.fst).nodup_iff).mp hnd
  cases h : bagGet m1 k with
  | none =>
    have := (bagGet_eq_none_iff m1 k).mp h
    have : k ∉ m2.map Prod.fst := fun hc => this ((hp.map Prod.fst).mem_iff.mpr hc)
    exact ((bagGet_eq_none_iff m2 k).mpr this).symm
  | some v =>
    exact (bagGet_eq_some_of_mem hnd2 (hp.mem_iff.mp (mem_of_bagGet_eq_some h))).symm

end Panforge

theorem flatMap_congr {α β : Type} {l : List α} {f g : α → List β}
    (h : ∀ x ∈ l, f x = g x) : l.flatMap f = l.flatMap g := by
  induction l with
  | nil => rfl
  | cons a l ih =>
    simp only [List.flatMap_cons, h a (List.mem_cons_self a l)]
    rw [ih (fun x hx => h x (List.mem_cons_of_mem a hx))]

/-! ## C3 — the overwrite policy is a monotone OR across layers -/

theorem overwriteEntry_iff (o : Option Panforge.Value) :
    App.overwriteEntry o = true ↔ o = some (Panforge.Value.bool true) := by
  rcases o with _ | v
  · simp [App.overwriteEntry]
  · rcases v with b | s | n | xs | mm <;> simp [App.overwriteEntry]

/-- C3: isOverwriteAllowed returns true exactly when the per-target bag
maps overwrite to boolean true or the global generic config does; in
particular a per-target false cannot veto a global true, and with no
boolean-true entry in either layer the result is false. -/
theorem claimC3_overwrite_policy (cfg : Pandoc.Config) (metaOut : Panforge.Bag) :
    App.isOverwriteAllowed cfg metaOut = true ↔
      Panforge.bagGet metaOut "overwrite" = some (Panforge.Value.bool true) ∨
      Panforge.bagGet cfg.generic "overwrite" = some (Panforge.Value.bool true) := by
  unfold App.isOverwriteAllowed
  rw [Bool.or_eq_true, overwriteEntry_iff, overwriteEntry_iff]

/-- Witness for C3 at concrete layers: a per-target explicit false next to
a global true still yields true, and two silent layers yield false. -/
theorem claimC3_witness :
    App.isOverwriteAllowed { generic := [("overwrite", Panforge.Value.bool true)] }
      [("overwrite", Panforge.Value.bool false)] = true ∧
    App.isOverwriteAllowed {} [] = false := by
  constructor
  · exact (claimC3_overwrite_policy _ _).mpr (Or.inr rfl)
  · by_contra hc
    rcases (claimC3_overwrite_policy {} []).mp (by revert hc; decide) with h | h <;>
      exact Option.noConfusion h

/-! ## C5 — target-list precedence -/

/-- C5: DetermineTargets returns the CLI list when non-empty; else the
string entries of a non-empty outputs list in order; else the keys of a
non-empty output map in sorted order; else the html fallback. -/
theorem claimC5_determine_targets (optsTargets : List String) (cfg : Pandoc.Config) :
    (optsTargets ≠ [] → App.DetermineTargets optsTargets cfg = optsTargets) ∧
    (optsTargets = [] → cfg.outputs ≠ [] →
      App.DetermineTargets optsTargets cfg =
        cfg.outputs.filterMap
          (fun v => match v with | .str s => some s | _ => none)) ∧
    (optsTargets = [] → cfg.outputs = [] → cfg.outputMap ≠ [] →
      (App.DetermineTargets optsTargets cfg).Perm (cfg.outputMap.map Prod.fst) ∧
      List.Sorted PfStr.strLe (App.DetermineTargets optsTargets cfg)) ∧
    (optsTargets = [] → cfg.outputs = [] → cfg.outputMap = [] →
      App.DetermineTargets optsTargets cfg = ["html"]) := by
  refine ⟨fun h => ?_, fun h1 h2 => ?_, fun h1 h2 h3 => ?_, fun h1 h2 h3 => ?_⟩
  · simp [App.DetermineTargets, List.length_pos.mpr h]
  · subst h1
    simp [App.DetermineTargets, List.length_pos.mpr h2]
  · subst h1
    simp only [App.DetermineTargets, h2, PfStr.sortStrings,
      List.length_nil, gt_iff_lt, lt_self_iff_false, if_false,
      if_pos (List.length_pos.mpr h3)]
    exact ⟨List.perm_insertionSort _ _, List.sorted_insertionSort _ _⟩
  · subst h1
    simp [App.DetermineTargets, h2, h3]

/-- Witness for C5: each branch of the precedence at a concrete input. -/
theorem claimC5_witness :
    App.DetermineTargets ["pdf", "docx"]
      { outputs := [Panforge.Value.str "html"] } = ["pdf", "docx"] ∧
    App.DetermineTargets [] { outputs := [Panforge.Value.str "html",
      Panforge.Value.str "epub"] } = ["html", "epub"] ∧
    (App.DetermineTargets [] { outputMap := [("pdf", Panforge.Value.bool true),
      ("docx", Panforge.Value.bool true)] }).Perm ["pdf", "docx"] ∧
    App.DetermineTargets [] {} = ["html"] := by
  refine ⟨?_, ?_, ?_, ?_⟩
  · exact (claimC5_determine_targets _ _).1 (by simp)
  · exact (claimC5_determine_targets _ _).2.1 rfl (by simp)
  · have h := (claimC5_determine_targets []
      { outputMap := [("pdf", Panforge.Value.bool true),
        ("docx", Panforge.Value.bool true)] }).2.2.1 rfl rfl (by simp)
    simpa using h.1
  · exact (claimC5_determine_targets _ _).2.2.2 rfl rfl rfl

/-! ## C6 — a non-empty per-target output override is returned verbatim -/

/-- C6: when the per-target bag carries a non-empty string output entry,
GenerateOutputFilename returns it unchanged: no template rendering, no
sanitization, no slugify pass. -/
theorem claimC6_override_verbatim (env : Pandoc.Env) (inputFile : String)
    (cfg : Pandoc.Config) (metaOut : Panforge.Bag) (pandocFmt s : String)
    (h : Panforge.bagGet metaOut "output" = some (Panforge.Value.str s))
    (hs : s ≠ "") :
    Pandoc.GenerateOutputFilename env inputFile cfg metaOut pandocFmt = s := by
  unfold Pandoc.GenerateOutputFilename
  rw [h]
  simp [hs]

/-- Witness for C6: a concrete override passes through unsanitized even
with slashes and an enabled slugify pass. -/
theorem claimC6_witness :
    Pandoc.GenerateOutputFilename {} "input.md" { slugifyFilename := some true }
      [("output", Panforge.Value.str "My Dir/Custom.HTML")] "html"
      = "My Dir/Custom.HTML" :=
  claimC6_override_verbatim _ _ _ _ _ _ rfl (by decide)

/-! ## C9 — GetArgs deletes pandoc_args from the caller bag -/

/-- C9: when the bag contains pandoc_args, the bag GetArgs leaves behind
has that key deleted and every other key bound as before. -/
theorem claimC9_getargs_mutates_bag (meta : Panforge.Bag) (v : Panforge.Value)
    (h : Panforge.bagGet meta "pandoc_args" = some v) :
    Panforge.bagGet (Pandoc.GetArgs meta).2 "pandoc_args" = none ∧
    ∀ k, k ≠ "pandoc_args" →
      Panforge.bagGet (Pandoc.GetArgs meta).2 k = Panforge.bagGet meta k := by
  have h2 : (Pandoc.GetArgs meta).2 = Panforge.bagDelete meta "pandoc_args" := by
    simp [Pandoc.GetArgs, Pandoc.extractPandocArgs, h]
  rw [h2]
  exact ⟨Panforge.bagGet_bagDelete_self _ _,
    fun k hk => Panforge.bagGet_bagDelete_ne _ _ _ hk⟩

/-- Witness for C9 on a concrete bag. -/
theorem claimC9_witness :
    Panforge.bagGet (Pandoc.GetArgs [("pandoc_args",
      Panforge.Value.list [Panforge.Value.str "-V"]),
      ("css", Panforge.Value.str "x")]).2 "pandoc_args" = none ∧
    Panforge.bagGet (Pandoc.GetArgs [("pandoc_args",
      Panforge.Value.list [Panforge.Value.str "-V"]),
      ("css", Panforge.Value.str "x")]).2 "css"
      = Panforge.bagGet [("pandoc_args",
        Panforge.Value.list [Panforge.Value.str "-V"]),
        ("css", Panforge.Value.str "x")] "css" := by
  have h := claimC9_getargs_mutates_bag [("pandoc_args",
    Panforge.Value.list [Panforge.Value.str "-V"]),
    ("css", Panforge.Value.str "x")] (Panforge.Value.list [Panforge.Value.str "-V"]) rfl
  exact ⟨h.1, h.2 "css" (by decide)⟩

/-! ## C10 — an empty or non-string override falls through to rendering -/

theorem shouldSlugify_bagDelete_output (cfg : Pandoc.Config) (metaOut : Panforge.Bag) :
    Pandoc.shouldSlugify cfg (Panforge.bagDelete metaOut "output") =
      Pandoc.shouldSlugify cfg metaOut := by
  unfold Pandoc.shouldSlugify
  rw [Panforge.bagGet_bagDelete_ne _ _ _ (by decide)]

/-- C10: an output entry that is present but the empty string, or not a
string at all, is ignored: the synthesized filename is the one produced
with no override present (template rendering, sanitization and the
optional slugify pass included). -/
theorem claimC10_empty_override_ignored (env : Pandoc.Env) (inputFile : String)
    (cfg : Pandoc.Config) (metaOut : Panforge.Bag) (pandocFmt : String)
    (v : Panforge.Value) (h : Panforge.bagGet metaOut "output" = some v)
    (hv : ∀ s, v = Panforge.Value.str s → s = "") :
    Pandoc.GenerateOutputFilename env inputFile cfg metaOut pandocFmt =
      Pandoc.GenerateOutputFilename env inputFile cfg
        (Panforge.bagDelete metaOut "output") pandocFmt := by
  have hrender : Pandoc.renderFilename env inputFile cfg metaOut pandocFmt =
      Pandoc.renderFilename env inputFile cfg
        (Panforge.bagDelete metaOut "output") pandocFmt := by
    unfold Pandoc.renderFilename
    rw [shouldSlugify_bagDelete_output]
  unfold Pandoc.GenerateOutputFilename
  rw [h, Panforge.bagGet_bagDelete_self]
  rcases v with b | s | n | xs | mm
  · exact hrender
  · rw [hv s rfl]
    simpa using hrender
  · exact hrender
  · exact hrender
  · exact hrender

/-- Witness for C10: an empty-string override and no override produce the
same filename on a concrete input. -/
theorem claimC10_witness :
    Pandoc.GenerateOutputFilename { date := "2026-10-11" } "input.md"
      { title := "T" } [("output", Panforge.Value.str "")] "html"
      = Pandoc.GenerateOutputFilename { date := "2026-10-11" } "input.md"
        { title := "T" }
        (Panforge.bagDelete [("output", Panforge.Value.str "")] "output") "html" :=
  claimC10_empty_override_ignored _ _ _ _ _ _ rfl
    (fun s hs => ((Panforge.Value.str.injEq "" s).mp hs).symm)

/-! ## C7 — format-to-extension table -/

/-- Domain of the fixed extension table (lower-case identifiers). -/
def extTableDomain : List String :=
  ["html", "html5", "epub", "epub3", "docx", "markdown", "md", "latex",
   "tex", "pdf", "beamer"]

/-- Counterexample for C7: the identifier FOO is not in the table, yet
ExtForFormat maps it to foo, not to itself — unknown identifiers are
lowercased, not returned verbatim. -/
theorem claimC7_counterexample :
    PfStr.toLowerStr "FOO" ∉ extTableDomain ∧
    Pandoc.ExtForFormat "FOO" = "foo" ∧ Pandoc.ExtForFormat "FOO" ≠ "FOO" := by
  refine ⟨by decide, rfl, by decide⟩

/-- C7 (amended): the table is matched case-insensitively and ExtForFormat
is total; an identifier whose lowercased form is outside the table maps to
its lowercased form — so exactly the already-lowercase unknown identifiers
map to themselves. -/
theorem claimC7_ext_table (s : String) :
    ((PfStr.toLowerStr s = "html" ∨ PfStr.toLowerStr s = "html5") →
      Pandoc.ExtForFormat s = "html") ∧
    ((PfStr.toLowerStr s = "epub" ∨ PfStr.toLowerStr s = "epub3") →
      Pandoc.ExtForFormat s = "epub") ∧
    (PfStr.toLowerStr s = "docx" → Pandoc.ExtForFormat s = "docx") ∧
    ((PfStr.toLowerStr s = "markdown" ∨ PfStr.toLowerStr s = "md") →
      Pandoc.ExtForFormat s = "md") ∧
    ((PfStr.toLowerStr s = "latex" ∨ PfStr.toLowerStr s = "tex") →
      Pandoc.ExtForFormat s = "tex") ∧
    ((PfStr.toLowerStr s = "pdf" ∨ PfStr.toLowerStr s = "beamer") →
      Pandoc.ExtForFormat s = "pdf") ∧
    (PfStr.toLowerStr s ∉ extTableDomain →
      Pandoc.ExtForFormat s = PfStr.toLowerStr s) ∧
    (PfStr.toLowerStr s ∉ extTableDomain → PfStr.toLowerStr s = s →
      Pandoc.ExtForFormat s = s) := by
  have hbase : PfStr.toLowerStr s ∉ extTableDomain →
      Pandoc.ExtForFormat s = PfStr.toLowerStr s := by
    intro h
    simp only [extTableDomain, List.mem_cons, List.not_mem_nil, or_false,
      not_or] at h
    obtain ⟨h1, h2, h3, h4, h5, h6, h7, h8, h9, h10, h11⟩ := h
    simp [Pandoc.ExtForFormat, h1, h2, h3, h4, h5, h6, h7, h8, h9, h10, h11]
  refine ⟨?_, ?_, ?_, ?_, ?_, ?_, hbase, fun h hid => (hbase h).trans hid⟩
  · rintro (h | h) <;> simp [Pandoc.ExtForFormat, h]
  · rintro (h | h) <;> simp [Pandoc.ExtForFormat, h]
  · intro h; simp [Pandoc.ExtForFormat, h]
  · rintro (h | h) <;> simp [Pandoc.ExtForFormat, h]
  · rintro (h | h) <;> simp [Pandoc.ExtForFormat, h]
  · rintro (h | h) <;> simp [Pandoc.ExtForFormat, h]

/-- Witness for C7: a mixed-case table identifier and a lowercase unknown
identifier through the amended theorem. -/
theorem claimC7_witness :
    Pandoc.ExtForFormat "LaTeX" = "tex" ∧ Pandoc.ExtForFormat "foo" = "foo" :=
  ⟨(claimC7_ext_table "LaTeX").2.2.2.2.1 (Or.inl (by decide)),
   (claimC7_ext_table "foo").2.2.2.2.2.2.2 (by decide) (by decide)⟩

/-! ## C8 — slugification: examples and idempotence -/

/-- Chain condition on slug output: a dash is always followed by an
alphanumeric character. -/
def dashR (a b : Char) : Prop := a = '-' → Utils.isSlugChar b = true

theorem isSlugChar_toNat {c : Char} (h : Utils.isSlugChar c = true) :
    (97 ≤ c.toNat ∧ c.toNat ≤ 122) ∨ (48 ≤ c.toNat ∧ c.toNat ≤ 57) := by
  simp only [Utils.isSlugChar, Bool.or_eq_true, Bool.and_eq_true,
    decide_eq_true_eq] at h
  rcases h with ⟨h1, h2⟩ | ⟨h1, h2⟩
  · exact Or.inl ⟨Char.le_def.mp h1, Char.le_def.mp h2⟩
  · exact Or.inr ⟨Char.le_def.mp h1, Char.le_def.mp h2⟩

theorem lowerChar_fix {c : Char} (h : Utils.isSlugChar c = true ∨ c = '-') :
    PfStr.lowerChar c = c := by
  rcases h with h | rfl
  · have hn := isSlugChar_toNat h
    unfold PfStr.lowerChar
    rw [if_neg]
    intro hc
    simp only [Bool.and_eq_true, decide_eq_true_eq] at hc
    have h1 : (65 : Nat) ≤ c.toNat := Char.le_def.mp hc.1
    have h2 : c.toNat ≤ (90 : Nat) := Char.le_def.mp hc.2
    omega
  · rfl

theorem isWS_eq_false {c : Char} (h : Utils.isSlugChar c = true ∨ c = '-') :
    PfStr.isWS c = false := by
  cases hws : PfStr.isWS c
  · rfl
  · exfalso
    simp only [PfStr.isWS, Bool.or_eq_true, beq_iff_eq] at hws
    rcases h with h | rfl
    · rcases hws with ((((rfl | rfl) | rfl) | rfl) | rfl) | rfl <;>
        exact absurd h (by decide)
    · rcases hws with ((((h1 | h1) | h1) | h1) | h1) | h1 <;>
        exact absurd h1 (by decide)

theorem dropWhile_eq_self_of {p : Char → Bool} {l : List Char}
    (h : ∀ c ∈ l, p c = false) : l.dropWhile p = l := by
  cases l with
  | nil => rfl
  | cons a t =>
    rw [List.dropWhile_cons, if_neg]
    simp [h a (List.mem_cons_self a t)]

theorem dropTrailing_eq_self_of {p : Char → Bool} {l : List Char}
    (h : ∀ c ∈ l, p c = false) : PfStr.dropTrailing p l = l := by
  unfold PfStr.dropTrailing
  rw [dropWhile_eq_self_of (fun c hc => h c (List.mem_reverse.mp hc)),
    List.reverse_reverse]

theorem trimSpace_eq_self {l : List Char} (h : ∀ c ∈ l, PfStr.isWS c = false) :
    PfStr.trimSpace l = l := by
  unfold PfStr.trimSpace
  rw [dropWhile_eq_self_of h, dropTrailing_eq_self_of h]

theorem mem_collapseAux {l : List Char} {flag : Bool} {c : Char}
    (h : c ∈ Utils.collapseAux flag l) :
    Utils.isSlugChar c = true ∨ c = '-' := by
  induction l generalizing flag with
  | nil => simp [Utils.collapseAux] at h
  | cons a rest ih =>
    by_cases ha : Utils.isSlugChar a = true
    · simp only [Utils.collapseAux, if_pos ha] at h
      rcases List.mem_cons.mp h with rfl | h
      · exact Or.inl ha
      · exact ih h
    · cases flag with
      | true =>
        simp only [Utils.collapseAux, if_neg ha, if_pos rfl] at h
        exact ih h
      | false =>
        simp only [Utils.collapseAux, if_neg ha] at h
        rw [if_neg (by simp)] at h
        rcases List.mem_cons.mp h with rfl | h
        · exact Or.inr rfl
        · exact ih h

theorem head_collapseAux_true {l : List Char} {x : Char}
    (h : (Utils.collapseAux true l).head? = some x) :
    Utils.isSlugChar x = true := by
  induction l with
  | nil => simp [Utils.collapseAux] at h
  | cons a rest ih =>
    by_cases ha : Utils.isSlugChar a = true
    · simp only [Utils.collapseAux, if_pos ha, List.head?_cons,
        Option.some.injEq] at h
      subst h
      exact ha
    · simp only [Utils.collapseAux, if_neg ha, if_pos rfl] at h
      exact ih h

theorem chain_collapseAux (flag : Bool) (l : List Char) :
    List.Chain' dashR (Utils.collapseAux flag l) := by
  induction l generalizing flag with
  | nil => simp [Utils.collapseAux]
  | cons a rest ih =>
    by_cases ha : Utils.isSlugChar a = true
    · simp only [Utils.collapseAux, if_pos ha]
      rw [List.chain'_cons']
      refine ⟨fun y _ hdash => ?_, ih false⟩
      rw [hdash] at ha
      exact absurd ha (by decide)
    · cases flag with
      | true =>
        simp only [Utils.collapseAux, if_neg ha, if_pos rfl]
        exact ih true
      | false =>
        simp only [Utils.collapseAux, if_neg ha]
        rw [if_neg (by simp)]
        rw [List.chain'_cons']
        refine ⟨fun y hy _ => ?_, ih true⟩
        exact head_collapseAux_true hy

theorem chain'_dropWhile {R : Char → Char → Prop} {p : Char → Bool}
    {l : List Char} (h : List.Chain' R l) :
    List.Chain' R (l.dropWhile p) := by
  induction l with
  | nil => exact h
  | cons a rest ih =>
    rw [List.dropWhile_cons]
    by_cases hp : p a = true
    · rw [if_pos hp]
      exact ih h.tail
    · rw [if_neg hp]
      exact h

theorem chain'_dropTrailing {R : Char → Char → Prop} {p : Char → Bool}
    {l : List Char} (h : List.Chain' R l) :
    List.Chain' R (PfStr.dropTrailing p l) := by
  unfold PfStr.dropTrailing
  rw [List.chain'_reverse]
  exact chain'_dropWhile (List.chain'_reverse.mpr h)

theorem head?_dropWhile_false {p : Char → Bool} {l : List Char} {x : Char}
    (h : (l.dropWhile p).head? = some x) : p x = false := by
  induction l with
  | nil => simp at h
  | cons a rest ih =>
    rw [List.dropWhile_cons] at h
    by_cases hp : p a = true
    · rw [if_pos hp] at h
      exact ih h
    · rw [if_neg hp] at h
      simp only [List.head?_cons, Option.some.injEq] at h
      subst h
      simp only [Bool.not_eq_true] at hp
      exact hp

theorem dropWhile_suffix_decomp (p : Char → Bool) (m : List Char) :
    ∃ t, m = t ++ m.dropWhile p := by
  induction m with
  | nil => exact ⟨[], rfl⟩
  | cons a rest ih =>
    rw [List.dropWhile_cons]
    by_cases hp : p a = true
    · rcases ih with ⟨t, ht⟩
      refine ⟨a :: t, ?_⟩
      rw [if_pos hp, List.cons_append, ← ht]
    · exact ⟨[], by rw [if_neg hp]; rfl⟩

theorem dropTrailing_decomp (p : Char → Bool) (l : List Char) :
    ∃ r, l = PfStr.dropTrailing p l ++ r := by
  obtain ⟨t, ht⟩ := dropWhile_suffix_decomp p l.reverse
  refine ⟨t.reverse, ?_⟩
  unfold PfStr.dropTrailing
  calc l = l.reverse.reverse := (List.reverse_reverse l).symm
  _ = (t ++ l.reverse.dropWhile p).reverse := by rw [← ht]
  _ = (l.reverse.dropWhile p).reverse ++ t.reverse := by rw [List.reverse_append]

theorem head?_dropTrailing {p : Char → Bool} {l : List Char} {x : Char}
    (h : (PfStr.dropTrailing p l).head? = some x) : l.head? = some x := by
  obtain ⟨r, hr⟩ := dropTrailing_decomp p l
  rw [hr]
  cases hdt : PfStr.dropTrailing p l with
  | nil => rw [hdt] at h; simp at h
  | cons a t =>
    rw [hdt] at h
    simp only [List.head?_cons, Option.some.injEq] at h
    subst h
    rfl

theorem getLast?_dropTrailing_false {p : Char → Bool} {l : List Char} {x : Char}
    (h : (PfStr.dropTrailing p l).getLast? = some x) : p x = false := by
  unfold PfStr.dropTrailing at h
  rw [List.getLast?_reverse] at h
  exact head?_dropWhile_false h

theorem mem_dropTrailing {p : Char → Bool} {l : List Char} {c : Char}
    (h : c ∈ PfStr.dropTrailing p l) : c ∈ l := by
  unfold PfStr.dropTrailing at h
  have h1 : c ∈ l.reverse.dropWhile p := List.mem_reverse.mp h
  exact List.mem_reverse.mp (List.Sublist.mem h1 (List.dropWhile_sublist p))

theorem mem_trimDash {l : List Char} {c : Char}
    (h : c ∈ Utils.trimDash l) : c ∈ l := by
  unfold Utils.trimDash at h
  exact List.Sublist.mem (mem_dropTrailing h) (List.dropWhile_sublist _)

theorem trimDash_chain {l : List Char} (h : List.Chain' dashR l) :
    List.Chain' dashR (Utils.trimDash l) := by
  unfold Utils.trimDash
  exact chain'_dropTrailing (chain'_dropWhile h)

theorem trimDash_getLast_ne {l : List Char} {x : Char}
    (h : (Utils.trimDash l).getLast? = some x) : x ≠ '-' := by
  unfold Utils.trimDash at h
  have := getLast?_dropTrailing_false h
  simpa using this

theorem trimDash_head_ne {l : List Char} {x : Char}
    (h : (Utils.trimDash l).head? = some x) : x ≠ '-' := by
  unfold Utils.trimDash at h
  have h2 := head?_dropTrailing h
  have := head?_dropWhile_false h2
  simpa using this

theorem collapse_fix {l : List Char}
    (hall : ∀ c ∈ l, Utils.isSlugChar c = true ∨ c = '-')
    (hchain : List.Chain' dashR l)
    (hlast : ∀ x, l.getLast? = some x → x ≠ '-') :
    Utils.collapseAux false l = l := by
  induction l with
  | nil => rfl
  | cons a rest ih =>
    by_cases ha : Utils.isSlugChar a = true
    · simp only [Utils.collapseAux, if_pos ha]
      congr 1
      apply ih
      · exact fun c hc => hall c (List.mem_cons_of_mem a hc)
      · exact hchain.tail
      · intro x hx
        apply hlast x
        cases rest with
        | nil => simp at hx
        | cons b t => rw [List.getLast?_cons_cons]; exact hx
    · have hdash : a = '-' := by
        rcases hall a (List.mem_cons_self a rest) with h | h
        · exact absurd h ha
        · exact h
      subst hdash
      cases rest with
      | nil => exact absurd rfl (hlast '-' rfl)
      | cons b t =>
        have hb : Utils.isSlugChar b = true :=
          (List.chain'_cons'.mp hchain).1 b rfl rfl
        have hrest : Utils.collapseAux false (b :: t) = b :: t := by
          apply ih
          · exact fun c hc => hall c (List.mem_cons_of_mem _ hc)
          · exact hchain.tail
          · intro x hx
            apply hlast x
            rw [List.getLast?_cons_cons]
            exact hx
        have ht : Utils.collapseAux false t = t := by
          have h2 : b :: Utils.collapseAux false t = b :: t := by
            rw [← hrest]
            simp only [Utils.collapseAux, if_pos hb]
          exact (List.cons.injEq _ _ _ _).mp h2 |>.2
        simp [Utils.collapseAux, ha, hb, ht]

theorem trimDash_eq_self {l : List Char}
    (hhead : ∀ x, l.head? = some x → x ≠ '-')
    (hlast : ∀ x, l.getLast? = some x → x ≠ '-') :
    Utils.trimDash l = l := by
  unfold Utils.trimDash
  have h1 : l.dropWhile (fun c => c == '-') = l := by
    cases l with
    | nil => rfl
    | cons a t =>
      rw [List.dropWhile_cons, if_neg]
      simp only [beq_iff_eq]
      exact hhead a rfl
  rw [h1]
  unfold PfStr.dropTrailing
  have h2 : l.reverse.dropWhile (fun c => c == '-') = l.reverse := by
    cases hrev : l.reverse with
    | nil => rfl
    | cons a t =>
      rw [List.dropWhile_cons, if_neg]
      simp only [beq_iff_eq]
      apply hlast a
      rw [← List.head?_reverse, hrev]
      rfl
  rw [h2, List.reverse_reverse]

theorem Slugify_ne_empty (t : String) (h : t ≠ "") :
    Utils.Slugify t = String.mk (Utils.trimDash (Utils.collapse
      ((PfStr.trimSpace t.data).map PfStr.lowerChar))) := by
  unfold Utils.Slugify
  rw [if_neg h]

/-- C8: Slugify maps "My New POST" to "my-new-post", maps the empty string
to itself, and is idempotent on every string. -/
theorem claimC8_slugify (x : String) :
    Utils.Slugify "My New POST" = "my-new-post" ∧ Utils.Slugify "" = "" ∧
    Utils.Slugify (Utils.Slugify x) = Utils.Slugify x := by
  refine ⟨by decide, rfl, ?_⟩
  by_cases hx : x = ""
  · subst hx; rfl
  · rw [Slugify_ne_empty x hx]
    set out := Utils.trimDash (Utils.collapse
      ((PfStr.trimSpace x.data).map PfStr.lowerChar)) with hout
    by_cases hmk : String.mk out = ""
    · rw [hmk]
      decide
    · rw [Slugify_ne_empty _ hmk]
      show String.mk (Utils.trimDash (Utils.collapse
        ((PfStr.trimSpace out).map PfStr.lowerChar))) = String.mk out
      have hmem : ∀ c ∈ out, Utils.isSlugChar c = true ∨ c = '-' := by
        intro c hc
        exact mem_collapseAux (mem_trimDash hc)
      have hts : PfStr.trimSpace out = out :=
        trimSpace_eq_self (fun c hc => isWS_eq_false (hmem c hc))
      have hmap : out.map PfStr.lowerChar = out := by
        rw [List.map_congr_left (fun c hc => lowerChar_fix (hmem c hc))]
        exact List.map_id' out
      rw [hts, hmap]
      have hchain : List.Chain' dashR out :=
        trimDash_chain (chain_collapseAux false _)
      have hlast : ∀ y, out.getLast? = some y → y ≠ '-' :=
        fun y hy => trimDash_getLast_ne hy
      have hhead : ∀ y, out.head? = some y → y ≠ '-' :=
        fun y hy => trimDash_head_ne hy
      rw [show Utils.collapse out = out from collapse_fix hmem hchain hlast]
      rw [trimDash_eq_self hhead hlast]

/-! ## C4 — reserved and always-excluded keys are never emitted -/

namespace Pandoc

/-- A key the generic pass of GetArgs drops: one of the four
always-excluded keys, or a key whose hyphenated name is a reserved
orchestrator flag. -/
def droppedKey (key : String) : Bool :=
  decide (key = "to" ∨ key = "t" ∨ key = "output" ∨ key = "from") ||
  internalFlags.contains (flagToCheck (hyphenate key))

end Pandoc

theorem extract_fst (m : Panforge.Bag) :
    (Pandoc.extractPandocArgs m).1 =
      (match Panforge.bagGet m "pandoc_args" with
       | some (Panforge.Value.list xs) => xs.map Panforge.fmtV
       | _ => []) := by
  unfold Pandoc.extractPandocArgs
  cases Panforge.bagGet m "pandoc_args" with
  | none => rfl
  | some v => cases v <;> rfl

theorem extract_snd (m : Panforge.Bag) :
    (Pandoc.extractPandocArgs m).2 =
      (match Panforge.bagGet m "pandoc_args" with
       | some _ => Panforge.bagDelete m "pandoc_args"
       | none => m) := by
  unfold Pandoc.extractPandocArgs
  cases Panforge.bagGet m "pandoc_args" <;> rfl

theorem emitOption_dropped {key : String} (v : Panforge.Value)
    (h : Pandoc.droppedKey key = true) : Pandoc.emitOption key v = [] := by
  simp only [Pandoc.droppedKey, Bool.or_eq_true, decide_eq_true_eq] at h
  by_cases h4 : key = "to" ∨ key = "t" ∨ key = "output" ∨ key = "from"
  · simp [Pandoc.emitOption, h4]
  · rcases h with h | h
    · exact absurd h h4
    · have hmem : Pandoc.flagToCheck (Pandoc.hyphenate key) ∈ Pandoc.internalFlags := by
        simpa using h
      simp [Pandoc.emitOption, h4, hmem]

theorem map_fst_bagDelete (m : Panforge.Bag) (k : String) :
    (Panforge.bagDelete m k).map Prod.fst =
      (m.map Prod.fst).filter (fun x => x ≠ k) := by
  induction m with
  | nil => rfl
  | cons kv rest ih =>
    rcases kv with ⟨k1, v1⟩
    by_cases h : k1 = k <;>
      simp [Panforge.bagDelete, h, List.filter_cons, ih]

theorem nodup_map_fst_bagDelete {m : Panforge.Bag} (k : String)
    (hnd : (m.map Prod.fst).Nodup) :
    ((Panforge.bagDelete m k).map Prod.fst).Nodup := by
  rw [map_fst_bagDelete]
  exact hnd.filter _

theorem bagDelete_eq_self_of_not_mem {m : Panforge.Bag} {k : String}
    (h : k ∉ m.map Prod.fst) : Panforge.bagDelete m k = m := by
  induction m with
  | nil => rfl
  | cons kv rest ih =>
    rcases kv with ⟨k1, v1⟩
    simp only [List.map_cons, List.mem_cons, not_or] at h
    rw [Panforge.bagDelete, if_neg (fun hc => h.1 hc.symm), ih h.2]

theorem sortStrings_split (keys : List String) (k : String)
    (hnd : keys.Nodup) (hmem : k ∈ keys) :
    ∃ l1 l2, PfStr.sortStrings keys = l1 ++ k :: l2 ∧
      PfStr.sortStrings (keys.filter (fun x => x ≠ k)) = l1 ++ l2 ∧
      k ∉ l1 ∧ k ∉ l2 := by
  have hperm : (PfStr.sortStrings keys).Perm keys := List.perm_insertionSort _ _
  obtain ⟨l1, l2, hsplit⟩ := List.append_of_mem (hperm.mem_iff.mpr hmem)
  have hndsort : (PfStr.sortStrings keys).Nodup := hperm.nodup_iff.mpr hnd
  have hnd2 : (l1 ++ k :: l2).Nodup := by rw [← hsplit]; exact hndsort
  obtain ⟨hl1, hl2, hdisj⟩ := List.nodup_append.mp hnd2
  have hk2 : k ∉ l2 := (List.nodup_cons.mp hl2).1
  have hk1 : k ∉ l1 := fun hc => hdisj hc (List.mem_cons_self _ _)
  refine ⟨l1, l2, hsplit, ?_, hk1, hk2⟩
  have hfl1 : l1.filter (fun x => x ≠ k) = l1 :=
    List.filter_eq_self.mpr (fun a ha => decide_eq_true (fun hc => hk1 (hc ▸ ha)))
  have hfl2 : l2.filter (fun x => x ≠ k) = l2 :=
    List.filter_eq_self.mpr (fun a ha => decide_eq_true (fun hc => hk2 (hc ▸ ha)))
  have hfk : (l1 ++ k :: l2).filter (fun x => x ≠ k) = l1 ++ l2 := by
    rw [List.filter_append, List.filter_cons, if_neg (by simp), hfl1, hfl2]
  have hsorted : List.Sorted PfStr.strLe (l1 ++ k :: l2) := by
    rw [← hsplit]
    exact List.sorted_insertionSort _ _
  apply List.eq_of_perm_of_sorted (r := PfStr.strLe)
  · have hstep : PfStr.sortStrings (keys.filter (fun x => x ≠ k)) |>.Perm
        ((l1 ++ k :: l2).filter (fun x => x ≠ k)) :=
      (List.perm_insertionSort _ _).trans
        (by rw [← hsplit]; exact (hperm.filter _).symm)
    rw [hfk] at hstep
    exact hstep
  · exact List.sorted_insertionSort _ _
  · exact hsorted.sublist ((List.sublist_cons_self k l2).append_left l1)

theorem genericArgs_bagDelete (m : Panforge.Bag) (k : String)
    (hnd : (m.map Prod.fst).Nodup) (hdrop : Pandoc.droppedKey k = true) :
    Pandoc.genericArgs (Panforge.bagDelete m k) = Pandoc.genericArgs m := by
  by_cases hmem : k ∈ m.map Prod.fst
  · obtain ⟨l1, l2, hsplit, hfilter, hk1, hk2⟩ :=
      sortStrings_split (m.map Prod.fst) k hnd hmem
    unfold Pandoc.genericArgs
    rw [map_fst_bagDelete, hfilter, hsplit]
    rw [List.flatMap_append, List.flatMap_append, List.flatMap_cons]
    have hcong : ∀ (l : List String), k ∉ l →
        (l.flatMap (fun key => match Panforge.bagGet (Panforge.bagDelete m k) key with
          | some val => Pandoc.emitOption key val
          | none => [])) =
        (l.flatMap (fun key => match Panforge.bagGet m key with
          | some val => Pandoc.emitOption key val
          | none => [])) := by
      intro l hkl
      apply flatMap_congr
      intro key hkey
      rw [Panforge.bagGet_bagDelete_ne m k key (fun hc => hkl (hc ▸ hkey))]
    rw [hcong l1 hk1, hcong l2 hk2]
    have hemit : (match Panforge.bagGet m k with
        | some val => Pandoc.emitOption k val
        | none => []) = [] := by
      cases hbg : Panforge.bagGet m k with
      | none => rfl
      | some v => exact emitOption_dropped v hdrop
    rw [hemit]
    simp
  · rw [bagDelete_eq_self_of_not_mem hmem]

/-- C4: the generic pass emits nothing for the keys to, t, output, from,
nor for any key whose hyphenated name is in the reserved orchestrator
flag set (built at process start from the options struct flag and
shorthand tags plus the help flags): the per-key emission is empty and
erasing such a key from a bag leaves the whole GetArgs vector unchanged.
Only the separately-extracted pandoc_args list bypasses these rules. -/
theorem claimC4_reserved_never_emitted (meta : Panforge.Bag) (k : String)
    (v : Panforge.Value) (hnd : (meta.map Prod.fst).Nodup)
    (hdrop : Pandoc.droppedKey k = true) :
    Pandoc.emitOption k v = [] ∧
    (Pandoc.GetArgs (Panforge.bagDelete meta k)).1 = (Pandoc.GetArgs meta).1 := by
  refine ⟨emitOption_dropped v hdrop, ?_⟩
  have hkpa : k ≠ "pandoc_args" := by
    rintro rfl
    exact absurd hdrop (by decide)
  have hget : Panforge.bagGet (Panforge.bagDelete meta k) "pandoc_args" =
      Panforge.bagGet meta "pandoc_args" :=
    Panforge.bagGet_bagDelete_ne _ _ _ (fun hc => hkpa hc.symm)
  have hfst : (Pandoc.extractPandocArgs (Panforge.bagDelete meta k)).1 =
      (Pandoc.extractPandocArgs meta).1 := by
    rw [extract_fst, extract_fst, hget]
  have hsnd : Pandoc.genericArgs (Pandoc.extractPandocArgs (Panforge.bagDelete meta k)).2 =
      Pandoc.genericArgs (Pandoc.extractPandocArgs meta).2 := by
    rw [extract_snd, extract_snd, hget]
    cases hbg : Panforge.bagGet meta "pandoc_args" with
    | none =>
      show Pandoc.genericArgs (Panforge.bagDelete meta k) = Pandoc.genericArgs meta
      exact genericArgs_bagDelete meta k hnd hdrop
    | some v0 =>
      show Pandoc.genericArgs
          (Panforge.bagDelete (Panforge.bagDelete meta k) "pandoc_args") =
        Pandoc.genericArgs (Panforge.bagDelete meta "pandoc_args")
      rw [Panforge.bagDelete_comm]
      exact genericArgs_bagDelete (Panforge.bagDelete meta "pandoc_args") k
        (nodup_map_fst_bagDelete _ hnd) hdrop
  show Pandoc.genericArgs (Pandoc.extractPandocArgs (Panforge.bagDelete meta k)).2 ++
      (Pandoc.extractPandocArgs (Panforge.bagDelete meta k)).1 =
    Pandoc.genericArgs (Pandoc.extractPandocArgs meta).2 ++
      (Pandoc.extractPandocArgs meta).1
  rw [hfst, hsnd]

/-- Witness for C4: the reserved key force and the excluded key to vanish
from a concrete bag. -/
theorem claimC4_witness :
    Pandoc.emitOption "force" (Panforge.Value.bool true) = [] ∧
    (Pandoc.GetArgs (Panforge.bagDelete
      [("css", Panforge.Value.str "x"), ("force", Panforge.Value.bool true)]
      "force")).1 =
    (Pandoc.GetArgs
      [("css", Panforge.Value.str "x"), ("force", Panforge.Value.bool true)]).1 := by
  have h := claimC4_reserved_never_emitted
    [("css", Panforge.Value.str "x"), ("force", Panforge.Value.bool true)]
    "force" (Panforge.Value.bool true) (by decide) (by decide)
  exact h

/-! ## C2 — determinism of the argument vector -/

theorem bagDelete_perm {m1 m2 : Panforge.Bag} (hp : m1.Perm m2) (k : String) :
    (Panforge.bagDelete m1 k).Perm (Panforge.bagDelete m2 k) := by
  rw [Panforge.bagDelete_eq_filter, Panforge.bagDelete_eq_filter]
  exact hp.filter _

theorem genericArgs_perm {m1 m2 : Panforge.Bag} (hp : m1.Perm m2)
    (hnd : (m1.map Prod.fst).Nodup) :
    Pandoc.genericArgs m1 = Pandoc.genericArgs m2 := by
  unfold Pandoc.genericArgs
  have hkeys : PfStr.sortStrings (m1.map Prod.fst) =
      PfStr.sortStrings (m2.map Prod.fst) := by
    apply List.eq_of_perm_of_sorted (r := PfStr.strLe)
    · exact (List.perm_insertionSort _ _).trans
        ((hp.map Prod.fst).trans (List.perm_insertionSort _ _).symm)
    · exact List.sorted_insertionSort _ _
    · exact List.sorted_insertionSort _ _
  rw [hkeys]
  apply flatMap_congr
  intro key _
  rw [Panforge.bagGet_perm hp hnd key]

/-- Counterexample for C2: two bags with the same key-value contents (the
nested metadata map entries merely reordered) yield different argument
vectors — the generic pass emits nested map entries in the iteration
order of the nested Go map, which carries no determinism guarantee. -/
theorem claimC2_counterexample :
    Panforge.sameContents
      [("metadata", Panforge.Value.map
        [("a", Panforge.Value.str "1"), ("b", Panforge.Value.str "2")])]
      [("metadata", Panforge.Value.map
        [("b", Panforge.Value.str "2"), ("a", Panforge.Value.str "1")])] = true ∧
    (Pandoc.GetArgs [("metadata", Panforge.Value.map
      [("a", Panforge.Value.str "1"), ("b", Panforge.Value.str "2")])]).1 ≠
    (Pandoc.GetArgs [("metadata", Panforge.Value.map
      [("b", Panforge.Value.str "2"), ("a", Panforge.Value.str "1")])]).1 := by
  constructor
  · decide
  · decide

/-- C2 (amended): the argument vector is deterministic in the top-level
iteration order — two bags holding the same top-level entries in any
order produce identical vectors, keys being processed in sorted order;
map-valued entries are emitted in the nested map iteration order, so
full determinism additionally needs the nested orders to agree. -/
theorem claimC2_sorted_keys_determinism (m1 m2 : Panforge.Bag)
    (hp : m1.Perm m2) (hnd : (m1.map Prod.fst).Nodup) :
    (Pandoc.GetArgs m1).1 = (Pandoc.GetArgs m2).1 := by
  have hbg := Panforge.bagGet_perm hp hnd "pandoc_args"
  have hfst : (Pandoc.extractPandocArgs m1).1 = (Pandoc.extractPandocArgs m2).1 := by
    rw [extract_fst, extract_fst, hbg]
  have hsnd : Pandoc.genericArgs (Pandoc.extractPandocArgs m1).2 =
      Pandoc.genericArgs (Pandoc.extractPandocArgs m2).2 := by
    rw [extract_snd, extract_snd, hbg]
    cases h2 : Panforge.bagGet m2 "pandoc_args" with
    | none =>
      show Pandoc.genericArgs m1 = Pandoc.genericArgs m2
      exact genericArgs_perm hp hnd
    | some v =>
      show Pandoc.genericArgs (Panforge.bagDelete m1 "pandoc_args") =
        Pandoc.genericArgs (Panforge.bagDelete m2 "pandoc_args")
      exact genericArgs_perm (bagDelete_perm hp _) (nodup_map_fst_bagDelete _ hnd)
  show Pandoc.genericArgs (Pandoc.extractPandocArgs m1).2 ++
      (Pandoc.extractPandocArgs m1).1 =
    Pandoc.genericArgs (Pandoc.extractPandocArgs m2).2 ++
      (Pandoc.extractPandocArgs m2).1
  rw [hfst, hsnd]

/-- Witness for C2 at a concrete pair of top-level reorderings. -/
theorem claimC2_witness :
    (Pandoc.GetArgs [("toc", Panforge.Value.bool true),
      ("css", Panforge.Value.str "s.css")]).1 =
    (Pandoc.GetArgs [("css", Panforge.Value.str "s.css"),
      ("toc", Panforge.Value.bool true)]).1 :=
  claimC2_sorted_keys_determinism _ _
    (List.Perm.swap _ _ _) (by decide)


/-! ## C1 — failure handling in the errgroup scheduler -/

namespace Sched

theorem record_eq (s : SchedState) (e : RunErr) :
    record s e =
      if s.firstErr = none
      then { s with firstErr := some e, canceled := true } else s := rfl

/-- Bookkeeping invariant of the errgroup in Process: the context is
canceled exactly when an error has been recorded; the recorded error is
the first execution failure in completion order; a recorded failure index
points at a job in the failedExec phase; and any job in the failedExec
phase implies the run records an error. -/
def Inv (s : SchedState) : Prop :=
  (s.canceled = s.firstErr.isSome) ∧
  (s.firstErr = s.failLog.head?.map RunErr.execFail) ∧
  (∀ i : Nat, s.firstErr = some (RunErr.execFail i) →
    s.phase[i]? = some Phase.failedExec) ∧
  (∀ i : Nat, s.phase[i]? = some Phase.failedExec → s.firstErr ≠ none)

theorem inv_init (fails : List Bool) (cap : Nat) : Inv (initState fails cap) := by
  refine ⟨rfl, rfl, ?_, ?_⟩
  · intro i h
    exact Option.noConfusion h
  · intro i h
    exfalso
    have h2 : (fails.map (fun _ => Phase.pending))[i]? = some Phase.failedExec := h
    rw [List.getElem?_map] at h2
    cases hf : fails[i]? with
    | none => rw [hf] at h2; exact Option.noConfusion h2
    | some b =>
      rw [hf] at h2
      exact Phase.noConfusion (Option.some.inj h2)

theorem lt_length_of_getElem?_phase {s : SchedState} {i : Nat} {p : Phase}
    (h : s.phase[i]? = some p) : i < s.phase.length := by
  by_contra hc
  rw [List.getElem?_eq_none (Nat.le_of_not_lt hc)] at h
  exact Option.noConfusion h

theorem inv_applyStep {s : SchedState} (hs : Inv s) (st : Step) :
    Inv ((applyStep s st).getD s) := by
  obtain ⟨h1, h2, h3, h4⟩ := hs
  cases st with
  | acquire i =>
    simp only [applyStep]
    split
    · rename_i hp
      by_cases hc : s.canceled = true
      · rw [if_pos hc]
        have hne : s.firstErr ≠ none := by
          intro hfe
          rw [hfe] at h1
          rw [hc] at h1
          exact Bool.noConfusion h1.symm
        simp only [Option.getD_some, record_eq]
        rw [if_neg hne]
        refine ⟨h1, h2, ?_, fun j _ => hne⟩
        intro j hj
        have hjold := h3 j hj
        have hij : i ≠ j := by
          rintro rfl
          rw [hp] at hjold
          exact Phase.noConfusion (Option.some.inj hjold)
        show (s.phase.set i .canceledEarly)[j]? = some .failedExec
        rw [List.getElem?_set_ne hij]
        exact hjold
      · rw [if_neg hc]
        have hcf : s.canceled = false := by
          cases hcc : s.canceled
          · rfl
          · exact absurd hcc hc
        have hfe : s.firstErr = none := by
          rw [hcf] at h1
          cases hfe2 : s.firstErr with
          | none => rfl
          | some e => rw [hfe2] at h1; exact Bool.noConfusion h1
        by_cases hsl : 0 < s.slots
        · rw [if_pos hsl]
          refine ⟨h1, h2, ?_, ?_⟩
          · intro j hj
            rw [hfe] at hj
            exact Option.noConfusion hj
          · intro j hj
            exfalso
            by_cases hij : i = j
            · subst hij
              have hj2 : (s.phase.set i Phase.running)[i]? = some Phase.failedExec := hj
              rw [List.getElem?_set_self (lt_length_of_getElem?_phase hp)] at hj2
              exact Phase.noConfusion (Option.some.inj hj2)
            · have hj2 : (s.phase.set i Phase.running)[j]? = some Phase.failedExec := hj
              rw [List.getElem?_set_ne hij] at hj2
              exact h4 j hj2 hfe
        · rw [if_neg hsl]
          exact ⟨h1, h2, h3, h4⟩
    · exact ⟨h1, h2, h3, h4⟩
  | finish i =>
    simp only [applyStep]
    split
    · rename_i hp
      by_cases hf : s.fails.getD i false = true
      · rw [if_pos hf]
        cases hfe : s.firstErr with
        | none =>
          rw [hfe] at h2
          simp only [Option.getD_some, record_eq]
          rw [if_pos trivial]
          have hlog : s.failLog = [] := by
            cases hfl : s.failLog with
            | nil => rfl
            | cons a t => rw [hfl] at h2; exact Option.noConfusion h2
          refine ⟨rfl, ?_, ?_, fun j _ hcon => Option.noConfusion hcon⟩
          · show some (RunErr.execFail i) =
              ((s.failLog ++ [i]).head?).map RunErr.execFail
            rw [hlog]
            rfl
          · intro j hj
            have hij : j = i :=
              ((RunErr.execFail.injEq _ _).mp (Option.some.inj hj)).symm
            subst hij
            show (s.phase.set j .failedExec)[j]? = some .failedExec
            rw [List.getElem?_set_self (lt_length_of_getElem?_phase hp)]
        | some e =>
          rw [hfe] at h1 h2 h3
          simp only [Option.getD_some, record_eq]
          rw [if_neg (Option.some_ne_none e)]
          refine ⟨h1, ?_, ?_, fun j _ => Option.some_ne_none e⟩
          · show some e = ((s.failLog ++ [i]).head?).map RunErr.execFail
            cases hfl : s.failLog with
            | nil => rw [hfl] at h2; exact Option.noConfusion h2
            | cons a t =>
              rw [hfl] at h2
              rw [List.cons_append]
              exact h2
          · intro j hj
            by_cases hij : i = j
            · subst hij
              show (s.phase.set i .failedExec)[i]? = some .failedExec
              rw [List.getElem?_set_self (lt_length_of_getElem?_phase hp)]
            · show (s.phase.set i .failedExec)[j]? = some .failedExec
              rw [List.getElem?_set_ne hij]
              exact h3 j hj
      · rw [if_neg hf]
        refine ⟨h1, h2, ?_, ?_⟩
        · intro j hj
          have hjold := h3 j hj
          have hij : i ≠ j := by
            rintro rfl
            rw [hp] at hjold
            exact Phase.noConfusion (Option.some.inj hjold)
          show (s.phase.set i .succeeded)[j]? = some .failedExec
          rw [List.getElem?_set_ne hij]
          exact hjold
        · intro j hj
          by_cases hij : i = j
          · subst hij
            have hj2 : (s.phase.set i Phase.succeeded)[i]? = some Phase.failedExec := hj
            rw [List.getElem?_set_self (lt_length_of_getElem?_phase hp)] at hj2
            exact Phase.noConfusion (Option.some.inj hj2)
          · have hj2 : (s.phase.set i Phase.succeeded)[j]? = some Phase.failedExec := hj
            rw [List.getElem?_set_ne hij] at hj2
            exact h4 j hj2
    · exact ⟨h1, h2, h3, h4⟩
  | finishKilled i =>
    simp only [applyStep]
    split
    · rename_i hp
      by_cases hc : s.canceled = true
      · rw [if_pos hc]
        have hne : s.firstErr ≠ none := by
          intro hfe
          rw [hfe] at h1
          rw [hc] at h1
          exact Bool.noConfusion h1.symm
        simp only [Option.getD_some, record_eq]
        rw [if_neg hne]
        refine ⟨h1, ?_, ?_, fun j _ => hne⟩
        · show s.firstErr = ((s.failLog ++ [i]).head?).map RunErr.execFail
          cases hfl : s.failLog with
          | nil =>
            exfalso
            rw [hfl] at h2
            cases hfe : s.firstErr with
            | none => exact hne hfe
            | some e => rw [hfe] at h2; exact Option.noConfusion h2
          | cons a t =>
            rw [hfl] at h2
            rw [List.cons_append]
            exact h2
        · intro j hj
          by_cases hij : i = j
          · subst hij
            show (s.phase.set i .failedExec)[i]? = some .failedExec
            rw [List.getElem?_set_self (lt_length_of_getElem?_phase hp)]
          · show (s.phase.set i .failedExec)[j]? = some .failedExec
            rw [List.getElem?_set_ne hij]
            exact h3 j hj
      · rw [if_neg hc]
        exact ⟨h1, h2, h3, h4⟩
    · exact ⟨h1, h2, h3, h4⟩

theorem inv_runSteps {s : SchedState} (hs : Inv s) (steps : List Step) :
    Inv (runSteps s steps) := by
  induction steps generalizing s with
  | nil => exact hs
  | cons st rest ih => exact ih (inv_applyStep hs st)

end Sched

/-- Counterexample for C1: with two targets and one semaphore slot, job 0
acquires, runs and fails; the errgroup records its error and cancels the
shared context; job 1 then leaves sem.Acquire with the context error and
never runs.  The run does reach a terminal state for every job, but job 1
was prevented from starting, contradicting the claim that already
scheduled jobs are allowed to continue to their own outcome. -/
theorem claimC1_counterexample :
    (Sched.runSteps (Sched.initState [true, false] 1)
      [Sched.Step.acquire 0, Sched.Step.finish 0, Sched.Step.acquire 1]).phase
      = [Sched.Phase.failedExec, Sched.Phase.canceledEarly] ∧
    (Sched.runSteps (Sched.initState [true, false] 1)
      [Sched.Step.acquire 0, Sched.Step.finish 0, Sched.Step.acquire 1]).firstErr
      = some (Sched.RunErr.execFail 0) ∧
    (Sched.runSteps (Sched.initState [true, false] 1)
      [Sched.Step.acquire 0, Sched.Step.finish 0, Sched.Step.acquire 1]).phase.all
      Sched.isTerminal = true := by
  refine ⟨?_, ?_, ?_⟩ <;> decide

/-- C1 (amended): in every interleaving of a Process run, a job whose
execution-port call errors is recorded as failed and the first such
failure is the error g.Wait reports (none is reported exactly when no
execution failed); however the errgroup cancels the shared context at the
first failure, so jobs that have not yet acquired a semaphore slot are
cancelled by sem.Acquire instead of being allowed to start, and in-flight
jobs may be killed through the canceled context — their failed outcomes
are still recorded but attributed to the first error. -/
theorem claimC1_failure_aggregation (fails : List Bool) (cap : Nat)
    (steps : List Sched.Step) :
    ((Sched.runSteps (Sched.initState fails cap) steps).firstErr =
      ((Sched.runSteps (Sched.initState fails cap) steps).failLog.head?).map
        Sched.RunErr.execFail) ∧
    (∀ i : Nat, (Sched.runSteps (Sched.initState fails cap) steps).firstErr =
        some (Sched.RunErr.execFail i) →
      (Sched.runSteps (Sched.initState fails cap) steps).phase[i]? =
        some Sched.Phase.failedExec) ∧
    (∀ i : Nat, (Sched.runSteps (Sched.initState fails cap) steps).phase[i]? =
        some Sched.Phase.failedExec →
      (Sched.runSteps (Sched.initState fails cap) steps).firstErr ≠ none) := by
  obtain ⟨_, h2, h3, h4⟩ := Sched.inv_runSteps (Sched.inv_init fails cap) steps
  exact ⟨h2, h3, h4⟩

/-- Witness for C1 on a concrete two-job interleaving in which both jobs
run and the first fails. -/
theorem claimC1_witness :
    (Sched.runSteps (Sched.initState [true, false] 2)
      [Sched.Step.acquire 0, Sched.Step.acquire 1, Sched.Step.finish 0,
       Sched.Step.finish 1]).phase[0]? = some Sched.Phase.failedExec ∧
    (Sched.runSteps (Sched.initState [true, false] 2)
      [Sched.Step.acquire 0, Sched.Step.acquire 1, Sched.Step.finish 0,
       Sched.Step.finish 1]).firstErr ≠ none := by
  refine ⟨?_, ?_⟩
  · exact (claimC1_failure_aggregation [true, false] 2
      [Sched.Step.acquire 0, Sched.Step.acquire 1, Sched.Step.finish 0,
       Sched.Step.finish 1]).2.1 0 (by decide)
  · exact (claimC1_failure_aggregation [true, false] 2
      [Sched.Step.acquire 0, Sched.Step.acquire 1, Sched.Step.finish 0,
       Sched.Step.finish 1]).2.2 0 (by decide)
